import Mathlib

/-!
Verification of the chunked scan-and-substitute engine of node-data-transform.

The embedding below follows src/lib/dataTransform.js (class DataTransform:
processChunk, modifyChunk, _transform) and src/lib/modifier.js (class
Modifier).  Bytes are modeled as natural numbers (Node Buffer cells), byte
buffers as `List Nat`, JavaScript strings as the list of their character
codes (the Modifier constructor converts strings with getStringAsCharChode,
which on this representation is the identity).  Out-of-bounds Buffer reads,
which in JavaScript yield `undefined`, are modeled with `Option` lookups
(`List.get?`), so a comparison of a pattern byte against a read past the end
of the chunk is `some b = none`, i.e. fails, exactly as `b !== undefined`.
The filesystem collaborator is a function from paths to `Option` contents:
`none` models a file that cannot be opened or read (Fs.accessSync or the
read stream throwing).
-/

set_option autoImplicit false

namespace DataTransform

/-- Action tag "append", as in the string-tagged dispatch of the source. -/
def actionAppend : String := "append"

/-- Action tag "prepend". -/
def actionPrepend : String := "prepend"

/-- Action tag "replace". -/
def actionReplace : String := "replace"

/-- Action tag "erase". -/
def actionErase : String := "erase"

/-- Action tag "compare". -/
def actionCompare : String := "compare"

/-- One entry of a modifier's contents array (src/lib/dataTransform.js,
modifyChunk): an object carrying a string, a buffer, or a file path.  Paths
are byte lists like every other JavaScript string here. -/
inductive Content where
  | str (s : List Nat)
  | buf (b : List Nat)
  | file (path : List Nat)
deriving DecidableEq

/-- A Modifier (src/lib/modifier.js): an action string, the byte pattern to
search for (field `match` in the source; `mtch` here because `match` is a
Lean keyword), and the optional contents array (JavaScript null becomes
`none`). -/
structure Modifier where
  action : String
  mtch : List Nat
  contents : Option (List Content)
deriving DecidableEq

/-- The filesystem collaborator: path to file bytes, `none` when the file
cannot be opened or read. -/
abbrev FileSystem := List Nat → Option (List Nat)

/-- The guard of the buffer branch of modifyChunk, line
`else if (typeof content.buffer === "Buffer")`.  In JavaScript `typeof`
applied to a Node Buffer evaluates to the string "object", never to
"Buffer", so this comparison is false for every value. -/
def typeofBufferIsBufferString : Bool := "object" == "Buffer"

/-- Bytes contributed by one contents entry, following the three branches of
the loop in modifyChunk: a string entry contributes its bytes, a buffer
entry sits behind the always-false `typeof` guard, a file entry contributes
the file bytes when readable and nothing when the access or read throws
(the catch block only logs). -/
def contentBytes (fs : FileSystem) : Content → List Nat
  | .str s => s
  | .buf b => if typeofBufferIsBufferString then b else []
  | .file p =>
    match fs p with
    | some data => data
    | none => []

/-- DataTransform.modifyChunk: appends the resolved contents entries, in
array order, to the accumulated output buffer; with no contents (JavaScript
`undefined`/`null`) the buffer is returned unchanged. -/
def modifyChunk (fs : FileSystem) (chunk : List Nat) (m : Modifier) : List Nat :=
  match m.contents with
  | none => chunk
  | some cs => cs.foldl (fun acc c => acc ++ contentBytes fs c) chunk

/-- Buffer.prototype.slice(a, b) on a byte list (for the non-negative
indices the source uses). -/
def listSlice (l : List Nat) (a b : Nat) : List Nat := (l.take b).drop a

/-- The byte-comparison loop `for(x; x < seek_length; x++)` of processChunk,
started at offset `x` with `k` comparisons left: returns the offset of the
first mismatching comparison (`found = false` in the source, with `some x`
the loop exit point), or `none` when all `seek_length` comparisons succeed. -/
def findMismatchAux (m chunk : List Nat) (i : Nat) : Nat → Nat → Option Nat
  | _, 0 => none
  | x, k + 1 =>
    if m.get? x = chunk.get? (i + x) then findMismatchAux m chunk i (x + 1) k
    else some x

/-- The byte-comparison loop of processChunk from offset 0. -/
def findMismatch (m chunk : List Nat) (i seek : Nat) : Option Nat :=
  findMismatchAux m chunk i 0 seek

/-- seek_length of processChunk: how far the match test may look, bounded by
the (possibly stale) chunk_remaining value. -/
def seekLen (len rem : Nat) : Nat := if len > rem then rem + 1 else len

/-- The output splice of a full non-compare match at position `i` with the
cursor (end_of_last_match) at `cursor`: copy the verbatim bytes from the
cursor up to the match (through its end for append), append the resolved
contents, and for prepend append the matched bytes after the contents. -/
def spliceOut (fs : FileSystem) (chunk : List Nat) (cursor i : Nat) (m : Modifier)
    (out : List Nat) : List Nat :=
  let endPos := if m.action = actionAppend then i + m.mtch.length else i
  let out2 := out ++ listSlice chunk cursor endPos
  let out3 := modifyChunk fs out2 m
  if m.action = actionPrepend then out3 ++ m.mtch else out3

/-- Result of the modifier loop (index `k`) of processChunk at one outer
position: either the loop ran to the end of the modifier list (`cont`, with
the current values of `i`, end_of_last_match, the output and the events), or
a partial match at the end of the chunk broke out of it (`halt`, carrying
the leftover). -/
inductive InnerResult where
  | cont (i cursor : Nat) (out : List Nat) (events : List (Modifier × Nat))
  | halt (cursor : Nat) (out : List Nat) (events : List (Modifier × Nat))
      (leftover : List Nat)
deriving DecidableEq

/-- The modifier loop `for(let k = 0; ...)` of processChunk.  `rem` is the
chunk_remaining value computed at the top of the enclosing outer iteration;
the source does not recompute it when a full match moves `i` inside this
loop, so it can be stale for the later modifiers.  A full compare match
emits an event and continues; a full non-compare match splices the output,
sets end_of_last_match past the match and moves `i` to one before it (the
source has no break here, so the remaining modifiers are tested at that
moved position); a partial match at the end of the chunk stores the leftover
and breaks. -/
def innerLoop (fs : FileSystem) (chunk : List Nat) (rem : Nat) :
    List Modifier → Nat → Nat → List Nat → List (Modifier × Nat) → InnerResult
  | [], i, cursor, out, events => .cont i cursor out events
  | m :: ms, i, cursor, out, events =>
    match findMismatch m.mtch chunk i (seekLen m.mtch.length rem) with
    | some _ => innerLoop fs chunk rem ms i cursor out events
    | none =>
      if seekLen m.mtch.length rem = m.mtch.length then
        if m.action = actionCompare then
          innerLoop fs chunk rem ms i cursor out (events ++ [(m, i)])
        else
          innerLoop fs chunk rem ms (i + m.mtch.length - 1) (i + m.mtch.length)
            (spliceOut fs chunk cursor i m out) events
      else if rem < m.mtch.length then
        .halt cursor (out ++ listSlice chunk cursor i) events
          (listSlice chunk i chunk.length)
      else
        innerLoop fs chunk rem ms i cursor out events

/-- The per-stream mutable state of a DataTransform instance that the chunk
processor reads and writes: leftover_data and end_of_last_match. -/
structure TState where
  leftover : Option (List Nat)
  end_of_last_match : Nat
deriving DecidableEq

/-- Result of one processChunk call: the returned output bytes, the updated
instance state, and the compare events emitted during the call. -/
structure PResult where
  out : List Nat
  state : TState
  events : List (Modifier × Nat)
deriving DecidableEq

/-- The outer position loop `for(let i = 0; i < chunk.length; i++)` of
processChunk, with explicit fuel for the recursion.  For every modifier list
whose patterns are all non-empty the loop advances `i` by at least one per
iteration, so fuel `chunk.length` makes the fuel bound unreachable (running
out of fuel and leaving the loop return the same value).  Each iteration
computes chunk_remaining, runs the modifier loop, breaks out when
leftover_data was set (returning immediately, no further positions), and at
the last position flushes the bytes from end_of_last_match to the end. -/
def outerLoop (fs : FileSystem) (mods : List Modifier) (chunk : List Nat) :
    Nat → Nat → Option (List Nat) → Nat → List Nat → List (Modifier × Nat) → PResult
  | 0, _, leftover, cursor, out, events => ⟨out, ⟨leftover, cursor⟩, events⟩
  | fuel + 1, i, leftover, cursor, out, events =>
    if i < chunk.length then
      match innerLoop fs chunk (chunk.length - 1 - i) mods i cursor out events with
      | .halt c2 out2 evs2 l => ⟨out2, ⟨some l, c2⟩, evs2⟩
      | .cont i2 c2 out2 evs2 =>
        match leftover with
        | some l => ⟨out2, ⟨some l, c2⟩, evs2⟩
        | none =>
          outerLoop fs mods chunk fuel (i2 + 1) none c2
            (if chunk.length - 1 - i = 0 then out2 ++ listSlice chunk c2 chunk.length
             else out2)
            evs2
    else ⟨out, ⟨leftover, cursor⟩, events⟩

/-- DataTransform.processChunk: with no modifiers the chunk itself is
returned at once and the instance state is untouched; otherwise
end_of_last_match is reset to 0 and the scan runs. -/
def processChunk (fs : FileSystem) (mods : List Modifier) (chunk : List Nat)
    (st : TState) : PResult :=
  if mods.length = 0 then ⟨chunk, st, []⟩
  else outerLoop fs mods chunk chunk.length 0 st.leftover 0 [] []

/-- One _transform call in streaming mode (concat = false): a pending
leftover is prepended to the arriving chunk and cleared before processing. -/
def transformStep (fs : FileSystem) (mods : List Modifier) (st : TState)
    (chunk : List Nat) : PResult :=
  match st.leftover with
  | some l => processChunk fs mods (l ++ chunk) ⟨none, st.end_of_last_match⟩
  | none => processChunk fs mods chunk st

/-- Streaming mode over a whole delivery: fold transformStep over the chunk
sequence, concatenating the emitted outputs and events. -/
def runStream (fs : FileSystem) (mods : List Modifier) :
    TState → List (List Nat) → PResult
  | st, [] => ⟨[], st, []⟩
  | st, c :: cs =>
    let r := transformStep fs mods st c
    let rest := runStream fs mods r.state cs
    ⟨r.out ++ rest.out, rest.state, r.events ++ rest.events⟩

/-- Concat mode (the default): _transform only accumulates, and _flush runs
processChunk once over the concatenation of all delivered chunks. -/
def runConcat (fs : FileSystem) (mods : List Modifier) (st : TState)
    (chunks : List (List Nat)) : PResult :=
  processChunk fs mods chunks.flatten st

/-- The Modifier constructor on an already-converted pattern: it stores the
action, the pattern and the contents with no validation whatsoever (an empty
string pattern becomes the empty byte list, since `match || ""` keeps it
empty and getStringAsCharChode of "" is []). -/
def mkModifier (action : String) (mtch : List Nat) (contents : Option (List Content)) :
    Modifier :=
  ⟨action, mtch, contents⟩

/-- DataTransform.modify: pushes the modifier onto the registry. -/
def modify (mods : List Modifier) (m : Modifier) : List Modifier := mods ++ [m]

/-- The first `n` comparisons of pattern `m` against `chunk` at position `i`
all succeed (with `Option` lookups, so a comparison against a position past
the chunk end fails).  This is the success predicate of the byte-comparison
loop. -/
def matchesAt (m chunk : List Nat) (i n : Nat) : Prop :=
  ∀ t, t < n → m.get? t = chunk.get? (i + t)

instance matchesAtDecidable (m chunk : List Nat) (i n : Nat) :
    Decidable (matchesAt m chunk i n) :=
  decidable_of_iff (∀ t, t < n → m.get? t = chunk.get? (i + t)) Iff.rfl

/-- Modelled from the spec: the left-to-right, non-overlapping substitution
function of the testable-properties section, stated on whole inputs: every
leftmost occurrence of `p` is replaced by `rep` and scanning resumes after
the consumed occurrence. -/
def specLeftmostReplace (p rep : List Nat) : List Nat → List Nat
  | [] => []
  | x :: rest =>
    if p ≠ [] ∧ p.isPrefixOf (x :: rest) then
      rep ++ specLeftmostReplace p rep (List.drop (p.length - 1) rest)
    else
      x :: specLeftmostReplace p rep rest
termination_by l => l.length
decreasing_by
  all_goals simp [List.length_drop]
  omega

/-- A filesystem on which no file is readable, used for concrete runs whose
modifiers carry no file contents. -/
def fsNone : FileSystem := fun _ => none

/-- Initial instance state: no leftover, end_of_last_match 0. -/
def st0 : TState := ⟨none, 0⟩

/-! Helper lemmas about the byte-comparison loop. -/

theorem findMismatchAux_eq_none_iff (m chunk : List Nat) (i : Nat) :
    ∀ k x, findMismatchAux m chunk i x k = none ↔
      ∀ t, t < k → m.get? (x + t) = chunk.get? (i + (x + t)) := by
  intro k
  induction k with
  | zero => intro x; simp [findMismatchAux]
  | succ k ih =>
    intro x
    rw [findMismatchAux]
    by_cases h : m.get? x = chunk.get? (i + x)
    · rw [if_pos h, ih (x + 1)]
      constructor
      · intro hall t ht
        cases t with
        | zero => simpa using h
        | succ t =>
          have hx := hall t (by omega)
          have harg : x + 1 + t = x + (t + 1) := by omega
          rw [harg] at hx
          exact hx
      · intro hall t ht
        have hx := hall (t + 1) (by omega)
        have harg : x + (t + 1) = x + 1 + t := by omega
        rw [harg] at hx
        exact hx
    · rw [if_neg h]
      constructor
      · intro hc; exact absurd hc (Option.some_ne_none x)
      · intro hall
        have hx := hall 0 (by omega)
        simp only [Nat.add_zero] at hx
        exact absurd hx h

theorem findMismatch_eq_none_iff (m chunk : List Nat) (i seek : Nat) :
    findMismatch m chunk i seek = none ↔ matchesAt m chunk i seek := by
  unfold findMismatch matchesAt
  rw [findMismatchAux_eq_none_iff]
  constructor
  · intro hall t ht
    have hx := hall t ht
    simpa using hx
  · intro hall t ht
    have hx := hall t ht
    simpa using hx

theorem seekLen_le (len rem : Nat) : seekLen len rem ≤ len := by
  unfold seekLen
  by_cases h : len > rem
  · rw [if_pos h]; omega
  · rw [if_neg h]

theorem matchesAt_mono (m chunk : List Nat) (i a b : Nat) (hab : a ≤ b)
    (h : matchesAt m chunk i b) : matchesAt m chunk i a :=
  fun t ht => h t (by omega)

theorem matchesAt_le_length (p chunk : List Nat) (i : Nat) (hp : p ≠ [])
    (h : matchesAt p chunk i p.length) : i + p.length ≤ chunk.length := by
  have hlen : 0 < p.length := List.length_pos.mpr hp
  have ht := h (p.length - 1) (by omega)
  by_contra hcon
  have hnone : chunk.get? (i + (p.length - 1)) = none := by
    rw [List.get?_eq_none]
    omega
  rw [hnone, List.get?_eq_none] at ht
  omega

/-! Helper lemmas about the modifier loop. -/

theorem innerLoop_skip (fs : FileSystem) (chunk : List Nat) (rem : Nat)
    (ms1 ms2 : List Modifier) :
    ∀ i cursor out events,
      (∀ m1 ∈ ms1, findMismatch m1.mtch chunk i (seekLen m1.mtch.length rem) ≠ none) →
      innerLoop fs chunk rem (ms1 ++ ms2) i cursor out events =
        innerLoop fs chunk rem ms2 i cursor out events := by
  induction ms1 with
  | nil => intro i cursor out events _; rfl
  | cons m ms1 ih =>
    intro i cursor out events h
    have hm := h m (List.mem_cons_self m ms1)
    obtain ⟨x, hx⟩ := Option.ne_none_iff_exists'.mp hm
    rw [List.cons_append, innerLoop, hx]
    exact ih i cursor out events fun m1 hm1 => h m1 (List.mem_cons_of_mem m hm1)

theorem foldl_append_shift (fs : FileSystem) (cs : List Content) :
    ∀ out : List Nat,
      List.foldl (fun acc c => acc ++ contentBytes fs c) out cs =
        out ++ List.foldl (fun acc c => acc ++ contentBytes fs c) [] cs := by
  induction cs with
  | nil => intro out; simp
  | cons c cs ih =>
    intro out
    rw [List.foldl_cons, List.foldl_cons, ih (out ++ contentBytes fs c),
      ih ([] ++ contentBytes fs c)]
    simp

theorem modifyChunk_eq_append (fs : FileSystem) (out : List Nat) (m : Modifier) :
    modifyChunk fs out m = out ++ modifyChunk fs [] m := by
  unfold modifyChunk
  cases m.contents with
  | none => simp
  | some cs => exact foldl_append_shift fs cs out

theorem spliceOut_replace (fs : FileSystem) (chunk : List Nat) (cursor i : Nat)
    (p : List Nat) (cs : Option (List Content)) (out : List Nat) :
    spliceOut fs chunk cursor i ⟨actionReplace, p, cs⟩ out =
      out ++ listSlice chunk cursor i ++ modifyChunk fs [] ⟨actionReplace, p, cs⟩ := by
  unfold spliceOut
  have h1 : actionReplace ≠ actionAppend := by decide
  have h2 : actionReplace ≠ actionPrepend := by decide
  simp only [if_neg h1, if_neg h2]
  rw [modifyChunk_eq_append]

/-! Helper lemmas about slices. -/

theorem listSlice_zero_length (l : List Nat) : listSlice l 0 l.length = l := by
  simp [listSlice]

theorem listSlice_self (l : List Nat) (a : Nat) : listSlice l a a = [] := by
  apply List.drop_eq_nil_of_le
  exact List.length_take_le a l

theorem listSlice_ge_length (l : List Nat) (a b : Nat) (h : l.length ≤ a) :
    listSlice l a b = [] := by
  apply List.drop_eq_nil_of_le
  calc (l.take b).length ≤ l.length := List.length_take_le' b l
    _ ≤ a := h

theorem listSlice_extend (l : List Nat) (a i : Nat) (hai : a ≤ i) (hi : i < l.length) :
    listSlice l a (i + 1) = listSlice l a i ++ [l.get ⟨i, hi⟩] := by
  unfold listSlice
  rw [← List.drop_append_of_le_length (by simpa using by omega)]
  congr 1
  rw [List.take_succ]
  congr 1
  rw [List.getElem?_eq_getElem hi]
  simp

/-! Bridges between pointwise matching and prefixes of the remaining input. -/

theorem matchesAt_iff_take_drop (p chunk : List Nat) (i : Nat) :
    matchesAt p chunk i p.length ↔ (List.drop i chunk).take p.length = p := by
  constructor
  · intro h
    apply List.ext_get?
    intro n
    by_cases hn : n < p.length
    · rw [List.get?_take hn, List.get?_drop]
      exact (h n hn).symm
    · have h1 : ((List.drop i chunk).take p.length).get? n = none := by
        rw [List.get?_eq_none]
        calc ((List.drop i chunk).take p.length).length ≤ p.length :=
              List.length_take_le p.length (List.drop i chunk)
          _ ≤ n := by omega
      have h2 : p.get? n = none := by rw [List.get?_eq_none]; omega
      rw [h1, h2]
  · intro h t ht
    have hx : ((List.drop i chunk).take p.length).get? t = p.get? t := by rw [h]
    rw [List.get?_take ht, List.get?_drop] at hx
    exact hx.symm

theorem isPrefixOf_drop_iff (p chunk : List Nat) (i : Nat) :
    p.isPrefixOf (List.drop i chunk) = true ↔ matchesAt p chunk i p.length := by
  rw [List.isPrefixOf_iff_prefix, List.prefix_iff_eq_take, matchesAt_iff_take_drop]
  constructor
  · intro h; exact h.symm
  · intro h; exact h.symm

/-! Step lemmas for the spec-side substitution function. -/

theorem specLeftmostReplace_nil (p rep : List Nat) : specLeftmostReplace p rep [] = [] := by
  rw [specLeftmostReplace]

theorem specLeftmostReplace_no_match (p rep chunk : List Nat) (i : Nat)
    (hi : i < chunk.length) (hnm : ¬ matchesAt p chunk i p.length) :
    specLeftmostReplace p rep (List.drop i chunk) =
      chunk.get ⟨i, hi⟩ :: specLeftmostReplace p rep (List.drop (i + 1) chunk) := by
  have hd : List.drop i chunk = chunk.get ⟨i, hi⟩ :: List.drop (i + 1) chunk :=
    List.drop_eq_get_cons hi
  rw [hd, specLeftmostReplace, if_neg]
  intro hcond
  apply hnm
  rw [← isPrefixOf_drop_iff, hd]
  exact hcond.2

theorem specLeftmostReplace_match (p rep chunk : List Nat) (i : Nat) (hp : p ≠ [])
    (hm : matchesAt p chunk i p.length) :
    specLeftmostReplace p rep (List.drop i chunk) =
      rep ++ specLeftmostReplace p rep (List.drop (i + p.length) chunk) := by
  have hplen : 0 < p.length := List.length_pos.mpr hp
  have hbound : i + p.length ≤ chunk.length := matchesAt_le_length p chunk i hp hm
  have hi : i < chunk.length := by omega
  have hd : List.drop i chunk = chunk.get ⟨i, hi⟩ :: List.drop (i + 1) chunk :=
    List.drop_eq_get_cons hi
  have hpre : p.isPrefixOf (chunk.get ⟨i, hi⟩ :: List.drop (i + 1) chunk) = true := by
    rw [← hd, isPrefixOf_drop_iff]
    exact hm
  rw [hd, specLeftmostReplace, if_pos ⟨hp, hpre⟩]
  have harg : i + 1 + (p.length - 1) = i + p.length := by omega
  rw [List.drop_drop, harg]

/-! Lemmas about the outer position loop. -/

theorem outerLoop_exit (fs : FileSystem) (mods : List Modifier) (chunk : List Nat)
    (fuel i : Nat) (leftover : Option (List Nat)) (cursor : Nat) (out : List Nat)
    (events : List (Modifier × Nat)) (h : chunk.length ≤ i) :
    outerLoop fs mods chunk fuel i leftover cursor out events =
      ⟨out, ⟨leftover, cursor⟩, events⟩ := by
  cases fuel with
  | zero => rfl
  | succ fuel => rw [outerLoop, if_neg (by omega)]

theorem probe_fails_of_no_occurrence (m chunk : List Nat)
    (h1 : ∀ j, j < chunk.length → ¬ matchesAt m chunk j m.length)
    (h2 : ∀ j, j < chunk.length →
      ¬ (chunk.length - j < m.length ∧ matchesAt m chunk j (chunk.length - j))) :
    ∀ j, j < chunk.length →
      findMismatch m chunk j (seekLen m.length (chunk.length - 1 - j)) ≠ none := by
  intro j hj hnone
  rw [findMismatch_eq_none_iff] at hnone
  unfold seekLen at hnone
  by_cases hgt : m.length > chunk.length - 1 - j
  · rw [if_pos hgt] at hnone
    have hseek : chunk.length - 1 - j + 1 = chunk.length - j := by omega
    rw [hseek] at hnone
    by_cases hfit : m.length = chunk.length - j
    · exact h1 j hj (hfit ▸ hnone)
    · exact h2 j hj ⟨by omega, hnone⟩
  · rw [if_neg hgt] at hnone
    exact h1 j hj hnone

theorem outerLoop_all_probes_fail (fs : FileSystem) (mods : List Modifier)
    (chunk : List Nat)
    (hfail : ∀ m ∈ mods, ∀ j, j < chunk.length →
      findMismatch m.mtch chunk j (seekLen m.mtch.length (chunk.length - 1 - j)) ≠ none) :
    ∀ fuel i cursor out events, i < chunk.length → chunk.length ≤ fuel + i →
      outerLoop fs mods chunk fuel i none cursor out events =
        ⟨out ++ listSlice chunk cursor chunk.length, ⟨none, cursor⟩, events⟩ := by
  intro fuel
  induction fuel with
  | zero => intro i cursor out events hi hfuel; omega
  | succ fuel ih =>
    intro i cursor out events hi hfuel
    have hinner : innerLoop fs chunk (chunk.length - 1 - i) mods i cursor out events =
        .cont i cursor out events := by
      have hskip := innerLoop_skip fs chunk (chunk.length - 1 - i) mods [] i cursor out
        events (fun m1 hm1 => hfail m1 hm1 i hi)
      rw [List.append_nil] at hskip
      rw [hskip, innerLoop]
    rw [outerLoop, if_pos hi, hinner]
    by_cases hlast : chunk.length - 1 - i = 0
    · simp only [if_pos hlast]
      exact outerLoop_exit fs mods chunk fuel (i + 1) none cursor
        (out ++ listSlice chunk cursor chunk.length) events (by omega)
    · simp only [if_neg hlast]
      exact ih (i + 1) cursor out events (by omega) (by omega)

theorem outerLoop_single_replace (fs : FileSystem) (p : List Nat)
    (cs : Option (List Content)) (chunk : List Nat) (hp : p ≠ [])
    (h2 : ∀ j, j < chunk.length →
      ¬ (chunk.length - j < p.length ∧ matchesAt p chunk j (chunk.length - j))) :
    ∀ fuel i cursor out events, i < chunk.length → chunk.length ≤ fuel + i →
      cursor ≤ i →
      (outerLoop fs [⟨actionReplace, p, cs⟩] chunk fuel i none cursor out events).out =
        out ++ listSlice chunk cursor i ++
          specLeftmostReplace p (modifyChunk fs [] ⟨actionReplace, p, cs⟩)
            (List.drop i chunk) := by
  have hplen : 0 < p.length := List.length_pos.mpr hp
  have hne : actionReplace ≠ actionCompare := by decide
  intro fuel
  induction fuel with
  | zero => intro i cursor out events hi hfuel _; omega
  | succ fuel ih =>
    intro i cursor out events hi hfuel hci
    cases hfm : findMismatch p chunk i (seekLen p.length (chunk.length - 1 - i)) with
    | some x =>
      have hinner : innerLoop fs chunk (chunk.length - 1 - i)
          [⟨actionReplace, p, cs⟩] i cursor out events = .cont i cursor out events := by
        simp only [innerLoop, hfm]
      have hnm : ¬ matchesAt p chunk i p.length := by
        intro hmat
        have hnone : findMismatch p chunk i (seekLen p.length (chunk.length - 1 - i)) =
            none := by
          rw [findMismatch_eq_none_iff]
          exact matchesAt_mono p chunk i _ p.length (seekLen_le _ _) hmat
        rw [hfm] at hnone
        cases hnone
      rw [outerLoop, if_pos hi]
      simp only [hinner]
      by_cases hlast : chunk.length - 1 - i = 0
      · simp only [if_pos hlast]
        rw [outerLoop_exit fs _ chunk fuel (i + 1) none cursor _ events (by omega)]
        have hieq : i + 1 = chunk.length := by omega
        rw [specLeftmostReplace_no_match p _ chunk i hi hnm]
        have hdrop : List.drop (i + 1) chunk = [] := by
          apply List.drop_eq_nil_of_le; omega
        rw [hdrop, specLeftmostReplace_nil]
        have hslice := listSlice_extend chunk cursor i hci hi
        rw [hieq] at hslice
        rw [hslice]
        simp
      · simp only [if_neg hlast]
        rw [ih (i + 1) cursor out events (by omega) (by omega) (by omega)]
        rw [specLeftmostReplace_no_match p _ chunk i hi hnm]
        rw [listSlice_extend chunk cursor i hci hi]
        simp
    | none =>
      have hmseek : matchesAt p chunk i (seekLen p.length (chunk.length - 1 - i)) := by
        rw [← findMismatch_eq_none_iff]
        exact hfm
      by_cases hgt : p.length > chunk.length - 1 - i
      · have hseq : seekLen p.length (chunk.length - 1 - i) = chunk.length - i := by
          unfold seekLen; rw [if_pos hgt]; omega
        by_cases hfit : chunk.length - i = p.length
        · have hmat : matchesAt p chunk i p.length := by
            rw [hseq, hfit] at hmseek
            exact hmseek
          have hseekfull : seekLen p.length (chunk.length - 1 - i) = p.length := by
            rw [hseq, hfit]
          have hfm2 : findMismatch p chunk i p.length = none := by
            rw [← hseekfull]
            exact hfm
          have hinner : innerLoop fs chunk (chunk.length - 1 - i)
              [⟨actionReplace, p, cs⟩] i cursor out events =
              .cont (i + p.length - 1) (i + p.length)
                (spliceOut fs chunk cursor i ⟨actionReplace, p, cs⟩ out) events := by
            simp [innerLoop, hfm2, hseekfull, hne]
          rw [outerLoop, if_pos hi]
          simp only [hinner]
          have hend : i + p.length = chunk.length := by omega
          have hsl : listSlice chunk (i + p.length) chunk.length = [] := by
            rw [hend]
            exact listSlice_self chunk chunk.length
          have hidx : i + p.length - 1 + 1 = i + p.length := by omega
          rw [hsl, hidx]
          have hout3 : (if chunk.length - 1 - i = 0 then
              spliceOut fs chunk cursor i ⟨actionReplace, p, cs⟩ out ++ []
              else spliceOut fs chunk cursor i ⟨actionReplace, p, cs⟩ out) =
              spliceOut fs chunk cursor i ⟨actionReplace, p, cs⟩ out := by
            simp
          rw [hout3]
          rw [outerLoop_exit fs _ chunk fuel (i + p.length) none (i + p.length) _ events
            (by omega)]
          rw [spliceOut_replace]
          rw [specLeftmostReplace_match p _ chunk i hp hmat]
          have hdropnil : List.drop (i + p.length) chunk = [] := by
            apply List.drop_eq_nil_of_le; omega
          rw [hdropnil, specLeftmostReplace_nil]
          simp
        · exfalso
          apply h2 i hi
          refine ⟨by omega, ?_⟩
          rw [hseq] at hmseek
          exact hmseek
      · have hseekfull : seekLen p.length (chunk.length - 1 - i) = p.length := by
          unfold seekLen; rw [if_neg hgt]
        have hmat : matchesAt p chunk i p.length := by
          rw [hseekfull] at hmseek
          exact hmseek
        have hfm2 : findMismatch p chunk i p.length = none := by
          rw [← hseekfull]
          exact hfm
        have hinner : innerLoop fs chunk (chunk.length - 1 - i)
            [⟨actionReplace, p, cs⟩] i cursor out events =
            .cont (i + p.length - 1) (i + p.length)
              (spliceOut fs chunk cursor i ⟨actionReplace, p, cs⟩ out) events := by
          simp [innerLoop, hfm2, hseekfull, hne]
        rw [outerLoop, if_pos hi]
        simp only [hinner]
        have hrem : ¬ (chunk.length - 1 - i = 0) := by omega
        simp only [if_neg hrem]
        have hidx : i + p.length - 1 + 1 = i + p.length := by omega
        rw [hidx]
        rw [ih (i + p.length) (i + p.length) _ events (by omega) (by omega) (by omega)]
        rw [spliceOut_replace, listSlice_self]
        rw [specLeftmostReplace_match p _ chunk i hp hmat]
        simp

/-! The claims. -/

/-- C1 counterexample: with Erase([0]) registered before Replace([0] -> [7]),
processing the one-byte chunk [0] yields [7], not the [] that the erase alone
produces: the full erase match at position 0 does not stop the modifier loop,
and the replace modifier is tested at the moved index 0 + 1 - 1 = 0, matching
the byte the erase already consumed. -/
theorem full_match_halt_counterexample :
    (processChunk fsNone [⟨actionErase, [0], none⟩] [0] st0).out = [] ∧
    (processChunk fsNone [⟨actionErase, [0], none⟩,
        ⟨actionReplace, [0], some [Content.str [7]]⟩] [0] st0).out = [7] :=
  ⟨rfl, rfl⟩

/-- C1, amended: when a non-Compare modifier fully matches at position i (the
modifiers before it in registration order all mismatching there), the
processor splices the output, sets the cursor (end_of_last_match) to
i + pattern.length and moves the scan index to cursor - 1 so that the outer
loop's increment lands exactly after the match; but it does not stop testing
the remaining modifiers: they are tested in the same pass at the moved index
cursor - 1, the consumed match's final byte, so a later modifier may produce
an overlapping match there. -/
theorem full_match_continues_with_remaining_modifiers (fs : FileSystem)
    (chunk : List Nat) (rem : Nat) (ms1 ms2 : List Modifier) (m : Modifier)
    (i cursor : Nat) (out : List Nat) (events : List (Modifier × Nat))
    (hskip : ∀ m1 ∈ ms1,
      findMismatch m1.mtch chunk i (seekLen m1.mtch.length rem) ≠ none)
    (hfull : matchesAt m.mtch chunk i m.mtch.length)
    (hseek : seekLen m.mtch.length rem = m.mtch.length)
    (hact : m.action ≠ actionCompare) :
    innerLoop fs chunk rem (ms1 ++ m :: ms2) i cursor out events =
      innerLoop fs chunk rem ms2 (i + m.mtch.length - 1) (i + m.mtch.length)
        (spliceOut fs chunk cursor i m out) events := by
  rw [innerLoop_skip fs chunk rem ms1 (m :: ms2) i cursor out events hskip]
  have hfm : findMismatch m.mtch chunk i (seekLen m.mtch.length rem) = none := by
    rw [findMismatch_eq_none_iff, hseek]
    exact hfull
  simp only [innerLoop, hfm]
  rw [if_pos hseek, if_neg hact]

/-- Witness for the amended C1 theorem at a concrete input: after the full
erase match of [0] at position 0, the loop continues with the replace
modifier at index 0 with the cursor at 1. -/
theorem full_match_continues_witness :
    innerLoop fsNone [0] 0
        [⟨actionReplace, [5], none⟩, ⟨actionErase, [0], none⟩,
          ⟨actionReplace, [0], some [Content.str [7]]⟩] 0 0 [] [] =
      innerLoop fsNone [0] 0 [⟨actionReplace, [0], some [Content.str [7]]⟩] 0 1
        (spliceOut fsNone [0] 0 0 ⟨actionErase, [0], none⟩ []) [] :=
  full_match_continues_with_remaining_modifiers fsNone [0] 0
    [⟨actionReplace, [5], none⟩] [⟨actionReplace, [0], some [Content.str [7]]⟩]
    ⟨actionErase, [0], none⟩ 0 0 [] [] (by decide) (by decide) (by decide)
    (by decide)

/-- C2: with Replace([0,1] -> [9]) and Replace([1,2] -> [8]) registered, the
stream [0,1,2,3] delivered as the two chunks [0,1] and [2,3] (each at least
as long as every pattern) produces [9,2,3] in streaming mode but [9,8,3] when
processed as a single chunk: after the first modifier's match consumes [0,1]
of the first chunk, the second modifier is probed at the moved index with the
stale chunk_remaining value, reads past the chunk end, and fails as a plain
mismatch instead of leaving the partial match [1] as leftover. -/
theorem streaming_vs_concat_divergence :
    (runStream fsNone [⟨actionReplace, [0, 1], some [Content.str [9]]⟩,
        ⟨actionReplace, [1, 2], some [Content.str [8]]⟩] st0 [[0, 1], [2, 3]]).out ≠
      (runConcat fsNone [⟨actionReplace, [0, 1], some [Content.str [9]]⟩,
        ⟨actionReplace, [1, 2], some [Content.str [8]]⟩] st0 [[0, 1], [2, 3]]).out ∧
    (runStream fsNone [⟨actionReplace, [0, 1], some [Content.str [9]]⟩,
        ⟨actionReplace, [1, 2], some [Content.str [8]]⟩] st0 [[0, 1], [2, 3]]).out =
      [9, 2, 3] ∧
    (runConcat fsNone [⟨actionReplace, [0, 1], some [Content.str [9]]⟩,
        ⟨actionReplace, [1, 2], some [Content.str [8]]⟩] st0 [[0, 1], [2, 3]]).out =
      [9, 8, 3] := by
  refine ⟨?_, rfl, rfl⟩
  decide

/-- C3 counterexample: first, Replace([0,1] -> [9]) on the input [0], which
contains no occurrence of the pattern, outputs [] instead of the input (the
trailing partial match is diverted into the never-flushed leftover); second,
with Replace([0] -> [7]) and Replace([0] -> [8]) both registered, the input
[0] becomes [7,8], not [7]: the first-registered modifier does not win the
offset, because after its match the second modifier is still tested at the
same index. -/
theorem replace_claim_counterexample :
    (processChunk fsNone [⟨actionReplace, [0, 1], some [Content.str [9]]⟩]
      [0] st0).out = [] ∧
    (processChunk fsNone [⟨actionReplace, [0], some [Content.str [7]]⟩,
        ⟨actionReplace, [0], some [Content.str [8]]⟩] [0] st0).out = [7, 8] :=
  ⟨rfl, rfl⟩

/-- C3, amended: for a single registered Replace modifier with a non-empty
pattern, on inputs none of whose non-empty suffixes is a proper prefix of the
pattern (no trailing partial match), the output equals the input with every
non-overlapping, leftmost-first occurrence of the pattern replaced by the
resolved content.  The same-offset tie-break clause of the original claim
does not hold in general (see the counterexample). -/
theorem single_replace_correct (fs : FileSystem) (p : List Nat)
    (cs : Option (List Content)) (chunk : List Nat) (hp : p ≠ [])
    (h2 : ∀ j, j < chunk.length →
      ¬ (chunk.length - j < p.length ∧ matchesAt p chunk j (chunk.length - j))) :
    (processChunk fs [⟨actionReplace, p, cs⟩] chunk ⟨none, 0⟩).out =
      specLeftmostReplace p (modifyChunk fs [] ⟨actionReplace, p, cs⟩) chunk := by
  unfold processChunk
  rw [if_neg (show ¬ ([⟨actionReplace, p, cs⟩] : List Modifier).length = 0 by simp)]
  show (outerLoop fs [⟨actionReplace, p, cs⟩] chunk chunk.length 0 none 0 [] []).out = _
  by_cases hc : chunk.length = 0
  · have hnil : chunk = [] := List.length_eq_zero.mp hc
    subst hnil
    rw [specLeftmostReplace_nil]
    rfl
  · rw [outerLoop_single_replace fs p cs chunk hp h2 chunk.length 0 0 [] []
      (by omega) (by omega) (by omega)]
    rw [listSlice_self]
    simp

/-- Witness for the amended C3 theorem: Replace([0,1] -> [9]) over
[0,1,2,0,1] gives the leftmost-replacement result [9,2,9]. -/
theorem single_replace_correct_witness :
    (processChunk fsNone [⟨actionReplace, [0, 1], some [Content.str [9]]⟩]
        [0, 1, 2, 0, 1] ⟨none, 0⟩).out =
      specLeftmostReplace [0, 1]
        (modifyChunk fsNone [] ⟨actionReplace, [0, 1], some [Content.str [9]]⟩)
        [0, 1, 2, 0, 1] :=
  single_replace_correct fsNone [0, 1] (some [Content.str [9]]) [0, 1, 2, 0, 1]
    (by decide) (by decide)

/-- C4 counterexample: in the chunk [0,1] with Replace([0,1] -> [9]) and
Replace([1,2] -> [8]) registered in that order, the second pattern partially
matches at position 1 using all remaining chunk bytes (its one-byte prefix
[1] is the chunk's suffix, and 1 < 2), yet processChunk stores no leftover:
position 1 was reached by skipping past the first modifier's match inside the
same pass, so the probe uses the stale remaining count, reads past the chunk
end and fails as a plain mismatch. -/
theorem partial_edge_claim_counterexample :
    matchesAt [1, 2] [0, 1] 1 1 ∧ (1 : Nat) < 2 ∧
    (processChunk fsNone [⟨actionReplace, [0, 1], some [Content.str [9]]⟩,
        ⟨actionReplace, [1, 2], some [Content.str [8]]⟩] [0, 1] st0).state.leftover =
      none ∧
    (processChunk fsNone [⟨actionReplace, [0, 1], some [Content.str [9]]⟩,
        ⟨actionReplace, [1, 2], some [Content.str [8]]⟩] [0, 1] st0).out = [9] :=
  ⟨by decide, by decide, rfl, rfl⟩

/-- C4, amended, in three parts.  (1) When the modifier loop reaches a
pattern that partially matches using all remaining chunk bytes, with the
remaining count current for position i (the position was entered from the
outer loop, the modifiers before the pattern mismatching there), it flushes
the verbatim bytes from the cursor up to i, stores chunk[i..end] as the
leftover, and halts the modifier loop.  (2) A halted modifier loop makes the
outer loop return at once: no further positions or modifiers are examined in
that call.  (3) At the start of the next streaming-mode call, a pending
leftover is prepended to the newly arrived chunk and cleared.  When the
position was instead reached by skipping past an earlier full match in the
same pass, the stale remaining count makes the probe read past the chunk end
and fail as a plain mismatch, storing no leftover (see the counterexample). -/
theorem partial_edge_behavior :
    (∀ (fs : FileSystem) (chunk : List Nat) (ms1 ms2 : List Modifier)
      (m : Modifier) (i cursor : Nat) (out : List Nat)
      (events : List (Modifier × Nat)),
      (∀ m1 ∈ ms1, findMismatch m1.mtch chunk i
        (seekLen m1.mtch.length (chunk.length - 1 - i)) ≠ none) →
      i < chunk.length →
      chunk.length - i < m.mtch.length →
      matchesAt m.mtch chunk i (chunk.length - i) →
      innerLoop fs chunk (chunk.length - 1 - i) (ms1 ++ m :: ms2) i cursor out
          events =
        .halt cursor (out ++ listSlice chunk cursor i) events
          (listSlice chunk i chunk.length)) ∧
    (∀ (fs : FileSystem) (mods : List Modifier) (chunk : List Nat)
      (fuel i : Nat) (leftover : Option (List Nat)) (cursor : Nat)
      (out : List Nat) (events : List (Modifier × Nat)) (c2 : Nat)
      (out2 : List Nat) (evs2 : List (Modifier × Nat)) (l : List Nat),
      i < chunk.length →
      innerLoop fs chunk (chunk.length - 1 - i) mods i cursor out events =
        .halt c2 out2 evs2 l →
      outerLoop fs mods chunk (fuel + 1) i leftover cursor out events =
        ⟨out2, ⟨some l, c2⟩, evs2⟩) ∧
    (∀ (fs : FileSystem) (mods : List Modifier) (st : TState)
      (chunk l : List Nat),
      st.leftover = some l →
      transformStep fs mods st chunk =
        processChunk fs mods (l ++ chunk) ⟨none, st.end_of_last_match⟩) := by
  refine ⟨?_, ?_, ?_⟩
  · intro fs chunk ms1 ms2 m i cursor out events hskip hi hlen hmat
    rw [innerLoop_skip fs chunk _ ms1 (m :: ms2) i cursor out events hskip]
    have hgt : m.mtch.length > chunk.length - 1 - i := by omega
    have hseq : seekLen m.mtch.length (chunk.length - 1 - i) = chunk.length - i := by
      unfold seekLen
      rw [if_pos hgt]
      omega
    have hfm2 : findMismatch m.mtch chunk i (chunk.length - i) = none := by
      rw [findMismatch_eq_none_iff]
      exact hmat
    simp only [innerLoop, hseq, hfm2]
    rw [if_neg (show ¬ chunk.length - i = m.mtch.length by omega),
      if_pos (show chunk.length - 1 - i < m.mtch.length by omega)]
  · intro fs mods chunk fuel i leftover cursor out events c2 out2 evs2 l hi hhalt
    rw [outerLoop, if_pos hi]
    simp only [hhalt]
  · intro fs mods st chunk l h
    unfold transformStep
    rw [h]

/-- Witness for the amended C4 theorem at concrete inputs: Prepend([0,1], [9])
over the one-byte chunk [0] leaves the partial match [0] as leftover and
halts; the halted loop makes processChunk return at once; and a pending
leftover [0] is prepended to the next streaming chunk with the stored state
cleared. -/
theorem partial_edge_behavior_witness :
    innerLoop fsNone [0] 0 [⟨actionPrepend, [0, 1], some [Content.str [9]]⟩]
        0 0 [] [] = .halt 0 [] [] [0] ∧
    outerLoop fsNone [⟨actionPrepend, [0, 1], some [Content.str [9]]⟩] [0]
        1 0 none 0 [] [] = ⟨[], ⟨some [0], 0⟩, []⟩ ∧
    transformStep fsNone [] ⟨some [0], 3⟩ [1] =
      processChunk fsNone [] ([0] ++ [1]) ⟨none, 3⟩ := by
  refine ⟨?_, ?_, ?_⟩
  · exact partial_edge_behavior.1 fsNone [0] [] []
      ⟨actionPrepend, [0, 1], some [Content.str [9]]⟩ 0 0 [] [] (by decide)
      (by decide) (by decide) (by decide)
  · exact partial_edge_behavior.2.1 fsNone
      [⟨actionPrepend, [0, 1], some [Content.str [9]]⟩] [0] 0 0 none 0 [] []
      0 [] [] [0] (by decide) rfl
  · exact partial_edge_behavior.2.2 fsNone [] ⟨some [0], 3⟩ [1] [0] rfl

/-- C5 counterexample: Erase([0,1]) on the input [0]: the pattern [0,1] does
not occur in [0], yet the output is [] rather than the input, because the
trailing partial match diverts the byte into the leftover, which this call
never emits. -/
theorem identity_claim_counterexample :
    (processChunk fsNone [⟨actionErase, [0, 1], none⟩] [0] st0).out = [] ∧
    (processChunk fsNone [⟨actionErase, [0, 1], none⟩] [0] st0).out ≠ [0] :=
  ⟨rfl, by decide⟩

/-- C5, amended: for every input in which no registered modifier's pattern
occurs anywhere, and in which additionally no non-empty suffix of the input
is a proper prefix of any registered pattern (so no partial match arises at
the right edge), the output is byte-identical to the input, regardless of
the modifiers' actions. -/
theorem identity_on_no_occurrence (fs : FileSystem) (mods : List Modifier)
    (chunk : List Nat) (st : TState) (hlo : st.leftover = none)
    (h1 : ∀ m ∈ mods, ∀ j, j < chunk.length →
      ¬ matchesAt m.mtch chunk j m.mtch.length)
    (h2 : ∀ m ∈ mods, ∀ j, j < chunk.length →
      ¬ (chunk.length - j < m.mtch.length ∧
        matchesAt m.mtch chunk j (chunk.length - j))) :
    (processChunk fs mods chunk st).out = chunk := by
  unfold processChunk
  by_cases hm : mods.length = 0
  · rw [if_pos hm]
  · rw [if_neg hm, hlo]
    by_cases hc : chunk.length = 0
    · have hnil : chunk = [] := List.length_eq_zero.mp hc
      subst hnil
      rfl
    · rw [outerLoop_all_probes_fail fs mods chunk
        (fun m hm1 => probe_fails_of_no_occurrence m.mtch chunk (h1 m hm1)
          (h2 m hm1))
        chunk.length 0 0 [] [] (by omega) (by omega)]
      simp [listSlice_zero_length]

/-- Witness for the amended C5 theorem: Erase([5]) leaves [1,2,3] unchanged. -/
theorem identity_on_no_occurrence_witness :
    (processChunk fsNone [⟨actionErase, [5], none⟩] [1, 2, 3] st0).out =
      [1, 2, 3] :=
  identity_on_no_occurrence fsNone [⟨actionErase, [5], none⟩] [1, 2, 3] st0 rfl
    (by decide) (by decide)

/-- C6: a contents entry carrying a byte buffer contributes nothing: the
source guard compares the result of the JavaScript typeof operator (which is
the string "object" for a Node Buffer) against the string "Buffer", so the
branch never runs.  A string entry in the same position does contribute its
bytes, and end to end, Replace([0] -> buffer [9]) on the input [0] produces
[] instead of [9].  This contradicts the documentation and examples shipped
with the source (a buffer entry is documented as data to append). -/
theorem buffer_entry_contributes_nothing :
    modifyChunk fsNone [1] ⟨actionReplace, [0], some [Content.buf [9]]⟩ = [1] ∧
    modifyChunk fsNone [1] ⟨actionReplace, [0], some [Content.str [9]]⟩ = [1, 9] ∧
    (processChunk fsNone [⟨actionReplace, [0], some [Content.buf [9]]⟩]
      [0] st0).out = [] :=
  ⟨rfl, rfl, rfl⟩

/-- C7 counterexample: Compare([0,1]) over the single chunk [0] emits [] while
the modifier-free processor emits [0]: the compare pattern's partial match at
the right edge diverts the tail into the leftover exactly like any other
modifier, so a Compare modifier can change the output bytes of a call. -/
theorem compare_changes_output_counterexample :
    (processChunk fsNone [⟨actionCompare, [0, 1], none⟩] [0] st0).out = [] ∧
    (processChunk fsNone [] [0] st0).out = [0] :=
  ⟨rfl, rfl⟩

/-- C7, amended: on a full match a Compare modifier changes neither the
output bytes nor the cursor: it only records a compare event carrying the
matched modifier and the chunk-relative offset, and the remaining modifiers
are still tested at that same position.  (A partial match of a Compare
pattern at the chunk's right edge, however, stores the tail as leftover and
halts the scan like any other modifier, which can change the bytes emitted
for the call; see the counterexample.) -/
theorem compare_full_match_is_frame (fs : FileSystem) (chunk : List Nat)
    (rem : Nat) (ms1 ms2 : List Modifier) (m : Modifier) (i cursor : Nat)
    (out : List Nat) (events : List (Modifier × Nat))
    (hskip : ∀ m1 ∈ ms1,
      findMismatch m1.mtch chunk i (seekLen m1.mtch.length rem) ≠ none)
    (hact : m.action = actionCompare)
    (hfull : matchesAt m.mtch chunk i m.mtch.length)
    (hseek : seekLen m.mtch.length rem = m.mtch.length) :
    innerLoop fs chunk rem (ms1 ++ m :: ms2) i cursor out events =
      innerLoop fs chunk rem ms2 i cursor out (events ++ [(m, i)]) := by
  rw [innerLoop_skip fs chunk rem ms1 (m :: ms2) i cursor out events hskip]
  have hfm : findMismatch m.mtch chunk i (seekLen m.mtch.length rem) = none := by
    rw [findMismatch_eq_none_iff, hseek]
    exact hfull
  simp only [innerLoop, hfm]
  rw [if_pos hseek, if_pos hact]

/-- Witness for the amended C7 theorem: a fully matching Compare([0]) records
its event at offset 0 and hands the unchanged position, cursor and output to
the next modifier. -/
theorem compare_full_match_is_frame_witness :
    innerLoop fsNone [0] 0
        [⟨actionCompare, [0], none⟩, ⟨actionErase, [1], none⟩] 0 0 [] [] =
      innerLoop fsNone [0] 0 [⟨actionErase, [1], none⟩] 0 0 []
        [(⟨actionCompare, [0], none⟩, 0)] :=
  compare_full_match_is_frame fsNone [0] 0 [] [⟨actionErase, [1], none⟩]
    ⟨actionCompare, [0], none⟩ 0 0 [] [] (by decide) rfl (by decide) (by decide)

/-- C8: a contents entry whose file cannot be opened or read contributes zero
bytes, and resolution of the remaining entries is unaffected: resolving a
contents list with an unreadable file entry equals resolving the same list
with that entry removed.  (The log line emitted by the catch block is
input/output and is not modeled.) -/
theorem unreadable_file_entry_skipped (fs : FileSystem) (a : String)
    (mt : List Nat) (out : List Nat) (cs1 cs2 : List Content) (p : List Nat)
    (h : fs p = none) :
    modifyChunk fs out ⟨a, mt, some (cs1 ++ Content.file p :: cs2)⟩ =
      modifyChunk fs out ⟨a, mt, some (cs1 ++ cs2)⟩ := by
  simp only [modifyChunk, List.foldl_append, List.foldl_cons, contentBytes, h,
    List.append_nil]

/-- Witness for the C8 theorem: with no file readable, a string entry, an
unreadable file entry and another string entry resolve exactly like the two
string entries alone. -/
theorem unreadable_file_entry_skipped_witness :
    modifyChunk fsNone [0] ⟨actionAppend, [1],
        some ([Content.str [1]] ++ Content.file [7] :: [Content.str [2]])⟩ =
      modifyChunk fsNone [0] ⟨actionAppend, [1],
        some ([Content.str [1]] ++ [Content.str [2]])⟩ :=
  unreadable_file_entry_skipped fsNone actionAppend [1] [0] [Content.str [1]]
    [Content.str [2]] [7] rfl

/-- C9 counterexample: registering a modifier with an empty pattern is not
rejected: modify() pushes it onto the registry unchanged, and during scanning
an empty pattern is reported as a full match at every position (here a
Compare with the empty pattern records an event at offset 0 of the chunk
[5], a chunk containing nothing). -/
theorem empty_pattern_accepted_counterexample :
    modify [] (mkModifier actionReplace [] (some [Content.str [7]])) =
      [⟨actionReplace, [], some [Content.str [7]]⟩] ∧
    innerLoop fsNone [5] 0 [⟨actionCompare, [], none⟩] 0 0 [] [] =
      .cont 0 0 [] [(⟨actionCompare, [], none⟩, 0)] :=
  ⟨rfl, rfl⟩

/-- C9, amended: neither the Modifier constructor nor modify() rejects an
empty pattern: registration stores it as the empty byte sequence, and during
scanning the empty pattern is treated as a full match at every position and
for every remaining count (its look-ahead bound is zero comparisons,
trivially satisfied), as shown here for a Compare modifier, which records an
event at every visited offset. -/
theorem empty_pattern_registration_and_scan :
    (∀ (mods : List Modifier) (a : String) (cs : Option (List Content)),
      modify mods (mkModifier a [] cs) = mods ++ [⟨a, [], cs⟩]) ∧
    (∀ (fs : FileSystem) (chunk : List Nat) (rem : Nat) (ms : List Modifier)
      (i cursor : Nat) (out : List Nat) (events : List (Modifier × Nat))
      (cs : Option (List Content)),
      innerLoop fs chunk rem (⟨actionCompare, [], cs⟩ :: ms) i cursor out
          events =
        innerLoop fs chunk rem ms i cursor out
          (events ++ [(⟨actionCompare, [], cs⟩, i)])) := by
  constructor
  · intro mods a cs
    rfl
  · intro fs chunk rem ms i cursor out events cs
    have hseek : seekLen (0 : Nat) rem = 0 := by
      unfold seekLen
      rw [if_neg (by omega)]
    have hfm : findMismatch ([] : List Nat) chunk i 0 = none := rfl
    simp only [innerLoop, List.length_nil, hseek, hfm]
    simp

/-- C10: with an empty modifier registry, processChunk returns the chunk
itself unmodified, emits no compare events, and leaves the leftover and the
cursor state untouched. -/
theorem processChunk_no_modifiers (fs : FileSystem) (chunk : List Nat)
    (st : TState) :
    processChunk fs [] chunk st = ⟨chunk, st, []⟩ := rfl

end DataTransform
